import Mathlib

/-!
Verification development for the `jim` large-file JSON editor.

The definitions below are a shallow embedding of the Rust sources:
  * `src/parser/tokenizer.rs`  — the single-pass JSON tokenizer,
  * `src/parser/structural_index.rs` — the flat node index and its queries,
  * `src/parser/node.rs` — node records,
  * `src/buffer/mod.rs`  — the hybrid mapped/rope storage core and save engine.

Conventions of the embedding:
  * Rust `String` / mmap byte slices are modelled as `List Nat`, one entry
    per byte (all contents appearing in the theorems are ASCII, where Rust's
    byte offsets, `ropey` char indices and our list indices coincide, and
    `String::from_utf8_lossy` is the identity).
  * `HashMap<usize, String>` is modelled as an association list with
    replace-on-insert semantics; `HashMap::len` is the list length.
  * `ropey::Rope` is modelled by its content `List Nat` together with the
    line functions `ropeLines` / `ropeLenLines` / `ropeByteToLine` /
    `ropeLineToByte` which mirror ropey's documented line semantics
    (lines keep their terminating newline, a trailing newline yields a
    final empty line).
  * Loops are written with an explicit fuel argument that strictly exceeds
    the number of iterations the Rust loop can perform (every iteration
    advances the position by at least one byte), so the fuel branch is
    unreachable.
  * Fallible Rust functions returning `anyhow::Result` are embedded as
    `Except String`.
  * The background save thread of `Buffer::save` is embedded as the pure
    function `runSaveThread` over an explicit file-system state plus an
    oracle saying which I/O step (if any) fails.
-/

namespace Jim

/-! ### Bytes

The Rust code works on bytes (`Vec<u8>`, mmap byte slices, UTF-8 string
bytes); a byte is modelled as a `Nat` (always `< 256`).  Named constants
give the byte values that the source matches on. -/

def nl : Nat := 10        -- newline
def crChar : Nat := 13    -- carriage return
def tabChar : Nat := 9    -- tab
def spChar : Nat := 32    -- space
def quoteChar : Nat := 34 -- double quote
def bslash : Nat := 92    -- backslash
def braceO : Nat := 123   -- opening brace
def braceC : Nat := 125   -- closing brace
def brackO : Nat := 91    -- opening bracket
def brackC : Nat := 93    -- closing bracket
def colonChar : Nat := 58 -- colon
def commaChar : Nat := 44 -- comma
def minusChar : Nat := 45 -- minus sign
def dotChar : Nat := 46   -- decimal point
def plusChar : Nat := 43  -- plus sign

/-- `u8::is_ascii_digit`. -/
def isDigitByte (c : Nat) : Bool := decide (48 ≤ c) && decide (c ≤ 57)

/-- `u32` modulus: the tokenizer's `depth` counter is a `u32`. -/
def U32 : Nat := 4294967296

/-! ### Tokens (`src/parser/token.rs`) -/

inductive TokenKind where
  | BraceOpen | BraceClose | BracketOpen | BracketClose
  | Colon | Comma | String | Number | True | False | Null
  | Whitespace | Invalid
deriving DecidableEq, Repr

structure Token where
  kind : TokenKind
  start : Nat
  stop : Nat      -- `end` in the Rust source (exclusive byte offset)
  depth : Nat     -- `u32` in the source; kept `< U32` by the operations
deriving DecidableEq, Repr

/-! ### Tokenizer (`src/parser/tokenizer.rs`) -/

structure TokState where
  input : List Nat
  pos : Nat
  depth : Nat
deriving DecidableEq, Repr

def isWsChar (c : Nat) : Bool :=
  c = spChar || c = nl || c = crChar || c = tabChar

/-- `skip_whitespace`'s scanning loop: first position `≥ pos` holding a
non-whitespace byte (or the end of input). -/
def wsEndGo (input : List Nat) : Nat → Nat → Nat
  | 0, pos => pos
  | fuel + 1, pos =>
    match input.get? pos with
    | some c => if isWsChar c then wsEndGo input fuel (pos + 1) else pos
    | none => pos

def wsEnd (input : List Nat) (pos : Nat) : Nat :=
  wsEndGo input (input.length + 1) pos

/-- `tokenize_string`'s loop, entered after the opening quote was consumed.
Returns the end position and whether the string was terminated. -/
def strEndGo (input : List Nat) : Nat → Nat → Nat × Bool
  | 0, pos => (pos, false)
  | fuel + 1, pos =>
    match input.get? pos with
    | none => (pos, false)
    | some c =>
      if c = quoteChar then (pos + 1, true)
      else if c = bslash then
        -- escape: `advance` consumes the next byte when one exists
        match input.get? (pos + 1) with
        | some _ => strEndGo input fuel (pos + 2)
        | none => strEndGo input fuel (pos + 1)
      else strEndGo input fuel (pos + 1)

/-- A run of ASCII digits starting at `pos`: returns the first non-digit
position. -/
def digitsEndGo (input : List Nat) : Nat → Nat → Nat
  | 0, pos => pos
  | fuel + 1, pos =>
    match input.get? pos with
    | some c => if isDigitByte c then digitsEndGo input fuel (pos + 1) else pos
    | none => pos

def digitsEnd (input : List Nat) (pos : Nat) : Nat :=
  digitsEndGo input (input.length + 1) pos

/-- `tokenize_number`: minus sign, digit run, optional fraction, optional
signed exponent; reports whether any integer digits were seen. -/
def numScan (input : List Nat) (pos0 : Nat) : Nat × Bool :=
  let p1 := if input.get? pos0 = some (minusChar) then pos0 + 1 else pos0
  let p2 := digitsEnd input p1
  let hasDigits := decide (p1 < p2)
  let p3 := if input.get? p2 = some (dotChar) then digitsEnd input (p2 + 1) else p2
  let p4 :=
    match input.get? p3 with
    | some c =>
      if c = 101 ∨ c = 69 then  -- lowercase or uppercase e
        let ps := p3 + 1
        let ps2 :=
          match input.get? ps with
          | some s => if s = plusChar ∨ s = minusChar then ps + 1 else ps
          | none => ps
        digitsEnd input ps2
      else p3
    | none => p3
  (p4, hasDigits)

/-- `match_keyword`: walk the expected bytes; on a mismatching byte the
mismatch is consumed, at end-of-input the position stays. -/
def keywordGo (input : List Nat) : List Nat → Nat → Nat × Bool
  | [], pos => (pos, true)
  | e :: rest, pos =>
    match input.get? pos with
    | some c => if c = e then keywordGo input rest (pos + 1) else (pos + 1, false)
    | none => (pos, false)

/-- The byte dispatch of `Tokenizer::next_token` (the `match ch` producing
`token`); every arm yields a token, wrapped in `Some` by `next_token`. -/
def dispatchChar (s : TokState) (c : Nat) : Token × TokState :=
  if c = braceO then
        (⟨.BraceOpen, s.pos, s.pos + 1, ((s.depth + 1) % U32 + U32 - 1) % U32⟩,
              { s with pos := s.pos + 1, depth := (s.depth + 1) % U32 })
      else if c = braceC then
        (⟨.BraceClose, s.pos, s.pos + 1, s.depth - 1⟩,
              { s with pos := s.pos + 1, depth := s.depth - 1 })
      else if c = brackO then
        (⟨.BracketOpen, s.pos, s.pos + 1, ((s.depth + 1) % U32 + U32 - 1) % U32⟩,
              { s with pos := s.pos + 1, depth := (s.depth + 1) % U32 })
      else if c = brackC then
        (⟨.BracketClose, s.pos, s.pos + 1, s.depth - 1⟩,
              { s with pos := s.pos + 1, depth := s.depth - 1 })
      else if c = colonChar then
        (⟨.Colon, s.pos, s.pos + 1, s.depth⟩, { s with pos := s.pos + 1 })
      else if c = commaChar then
        (⟨.Comma, s.pos, s.pos + 1, s.depth⟩, { s with pos := s.pos + 1 })
      else if c = quoteChar then
        (⟨if (strEndGo s.input (s.input.length + 1) (s.pos + 1)).2 then .String
               else .Invalid,
               s.pos, (strEndGo s.input (s.input.length + 1) (s.pos + 1)).1, s.depth⟩,
              { s with pos := (strEndGo s.input (s.input.length + 1) (s.pos + 1)).1 })
      else if c = minusChar ∨ isDigitByte c then
        (⟨if (numScan s.input s.pos).2 then .Number else .Invalid,
               s.pos, (numScan s.input s.pos).1, s.depth⟩,
              { s with pos := (numScan s.input s.pos).1 })
      else if c = 116 then  -- lowercase t
        (⟨if (keywordGo s.input [116, 114, 117, 101] s.pos).2 then .True else .Invalid,
               s.pos, (keywordGo s.input [116, 114, 117, 101] s.pos).1, s.depth⟩,
              { s with pos := (keywordGo s.input [116, 114, 117, 101] s.pos).1 })
      else if c = 102 then  -- lowercase f
        (⟨if (keywordGo s.input [102, 97, 108, 115, 101] s.pos).2 then .False
               else .Invalid,
               s.pos, (keywordGo s.input [102, 97, 108, 115, 101] s.pos).1, s.depth⟩,
              { s with pos := (keywordGo s.input [102, 97, 108, 115, 101] s.pos).1 })
      else if c = 110 then  -- lowercase n
        (⟨if (keywordGo s.input [110, 117, 108, 108] s.pos).2 then .Null else .Invalid,
               s.pos, (keywordGo s.input [110, 117, 108, 108] s.pos).1, s.depth⟩,
              { s with pos := (keywordGo s.input [110, 117, 108, 108] s.pos).1 })
      else
        (⟨.Invalid, s.pos, s.pos + 1, s.depth⟩, { s with pos := s.pos + 1 })

/-- `Tokenizer::next_token`. -/
def nextToken (s : TokState) : Option (Token × TokState) :=
  if s.pos < wsEnd s.input s.pos then
    some (⟨.Whitespace, s.pos, wsEnd s.input s.pos, s.depth⟩,
          { s with pos := wsEnd s.input s.pos })
  else
    match s.input.get? s.pos with
    | none => none
    | some c => some (dispatchChar s c)

/-- `Tokenizer::tokenize_all` (the fuel strictly bounds the number of
tokens, since every `next_token` advances the position). -/
def tokenizeAllGo : Nat → TokState → List Token
  | 0, _ => []
  | fuel + 1, s =>
    match nextToken s with
    | none => []
    | some (t, s') => t :: tokenizeAllGo fuel s'

def tokenizeAll (input : List Nat) : List Token :=
  tokenizeAllGo (input.length + 1) ⟨input, 0, 0⟩

/-! ### Nodes (`src/parser/node.rs`) -/

inductive NodeKind where
  | Object | Array | String | Number | Boolean | Null | Key | Unknown | Error
deriving DecidableEq, Repr

inductive ParseStatus where
  | Unparsed | Parsing | Parsed | Invalid
deriving DecidableEq, Repr

structure NodeInfo where
  kind : NodeKind
  start : Nat
  stop : Nat          -- `end` in the Rust source (exclusive)
  depth : Nat         -- `u8` in the source; stored reduced `% 256`
  parent : Option Nat
  status : ParseStatus
deriving DecidableEq, Repr

instance : Inhabited NodeInfo := ⟨⟨.Unknown, 0, 0, 0, none, .Unparsed⟩⟩

/-- `NodeInfo::new` (status is always `Parsed`). -/
def NodeInfo.mkNew (kind : NodeKind) (start stop depth : Nat) (parent : Option Nat) :
    NodeInfo :=
  ⟨kind, start, stop, depth, parent, .Parsed⟩

/-- `NodeInfo::contains`. -/
def NodeInfo.containsOff (n : NodeInfo) (off : Nat) : Bool :=
  decide (n.start ≤ off) && decide (off < n.stop)

/-! ### Structural index (`src/parser/structural_index.rs`)

The index is its flat node list (the `offset_map` is not used by any
claim). The container stack holds node ids; the Rust `Vec` pushes/pops at
the back and reads `last()`, modelled by a list with its head as the top. -/

/-- One step of `StructuralIndex::from_tokens`' loop: given the nodes built
so far and the open-container stack, process one token. -/
def fromTokensStep (nodes : List NodeInfo) (stack : List Nat) (t : Token) :
    List NodeInfo × List Nat :=
  match t.kind with
  | .BraceOpen =>
    let nodeId := nodes.length
    (nodes ++ [NodeInfo.mkNew .Object t.start t.stop (t.depth % 256) stack.head?],
     nodeId :: stack)
  | .BracketOpen =>
    let nodeId := nodes.length
    (nodes ++ [NodeInfo.mkNew .Array t.start t.stop (t.depth % 256) stack.head?],
     nodeId :: stack)
  | .BraceClose | .BracketClose =>
    match stack with
    | [] => (nodes, [])
    | nodeId :: rest =>
      match nodes.get? nodeId with
      | some n => (nodes.set nodeId { n with stop := t.stop }, rest)
      | none => (nodes, rest)
  | .String =>
    (nodes ++ [NodeInfo.mkNew .String t.start t.stop (t.depth % 256) stack.head?], stack)
  | .Number =>
    (nodes ++ [NodeInfo.mkNew .Number t.start t.stop (t.depth % 256) stack.head?], stack)
  | .True | .False =>
    (nodes ++ [NodeInfo.mkNew .Boolean t.start t.stop (t.depth % 256) stack.head?], stack)
  | .Null =>
    (nodes ++ [NodeInfo.mkNew .Null t.start t.stop (t.depth % 256) stack.head?], stack)
  | _ => (nodes, stack)

def fromTokensGo : List Token → List NodeInfo → List Nat → List NodeInfo
  | [], nodes, _ => nodes
  | t :: ts, nodes, stack =>
    let r := fromTokensStep nodes stack t
    fromTokensGo ts r.1 r.2

/-- `StructuralIndex::from_tokens` (returning the node list). -/
def fromTokens (tokens : List Token) : List NodeInfo :=
  fromTokensGo tokens [] []

/-- The comparator closure used by `StructuralIndex::node_at`. -/
def nodeAtCmp (off : Nat) (n : NodeInfo) : Ordering :=
  if off < n.start then .gt else if n.stop ≤ off then .lt else .eq

/-- `slice::binary_search_by` from the Rust standard library: the midpoint
is `left + (right - left) / 2`; `Less` moves `left` past `mid`, `Greater`
moves `right` to `mid`, `Equal` returns `Ok(mid)`.  The fuel strictly
bounds the number of iterations (the interval shrinks every step). -/
def binSearchByGo [Inhabited α] (l : List α) (f : α → Ordering) :
    Nat → Nat → Nat → Nat ⊕ Nat
  | 0, left, _ => .inr left
  | fuel + 1, left, right =>
    if left < right then
      match f (l.getD (left + (right - left) / 2) default) with
      | .lt => binSearchByGo l f fuel (left + (right - left) / 2 + 1) right
      | .gt => binSearchByGo l f fuel left (left + (right - left) / 2)
      | .eq => .inl (left + (right - left) / 2)
    else .inr left

def binSearchBy [Inhabited α] (l : List α) (f : α → Ordering) : Nat ⊕ Nat :=
  binSearchByGo l f (l.length + 1) 0 l.length

/-- `StructuralIndex::node_at`. -/
def nodeAt (nodes : List NodeInfo) (off : Nat) : Option NodeInfo :=
  match binSearchBy nodes (nodeAtCmp off) with
  | .inl idx => nodes.get? idx
  | .inr _ => none

/-- The forward scan of `StructuralIndex::next_sibling` over the
`enumerate().skip(node_id + 1)` suffix. -/
def scanSibling (depth : Nat) (parent : Option Nat) : List (Nat × NodeInfo) → Option Nat
  | [] => none
  | (idx, n) :: rest =>
    if n.depth = depth ∧ n.parent = parent then some idx
    else if n.depth < depth then none
    else scanSibling depth parent rest

/-- `StructuralIndex::next_sibling`. -/
def nextSibling (nodes : List NodeInfo) (nodeId : Nat) : Option Nat :=
  match nodes.get? nodeId with
  | none => none
  | some node => scanSibling node.depth node.parent (nodes.enum.drop (nodeId + 1))

/-! ### Depth accounting of the tokenizer

`depthStep` is how `next_token` updates the `u32` depth counter for a
token of the given kind; `tokenDepthOkClaim` is the property the spec
asserts of a recorded depth (the depth *before* the token's own nesting
change); `tokenDepthOkActual` is what the code records (opens record the
pre-change depth, closes record the post-decrement depth). -/

def depthStep (d : Nat) (k : TokenKind) : Nat :=
  match k with
  | .BraceOpen | .BracketOpen => (d + 1) % U32
  | .BraceClose | .BracketClose => d - 1
  | _ => d

def tokenDepthOkClaim (d : Nat) (t : Token) : Bool :=
  match t.kind with
  | .BraceOpen | .BracketOpen | .BraceClose | .BracketClose => t.depth == d
  | _ => true

def tokenDepthOkActual (d : Nat) (t : Token) : Bool :=
  match t.kind with
  | .BraceOpen | .BracketOpen => t.depth == d
  | .BraceClose | .BracketClose => t.depth == d - 1
  | _ => true

/-- Every open/close token in the stream records the depth as it was
before its own nesting change (the claim's property). -/
def recordsPre : Nat → List Token → Bool
  | _, [] => true
  | d, t :: ts => tokenDepthOkClaim d t && recordsPre (depthStep d t.kind) ts

/-- Opens record the pre-change depth, closes the post-decrement depth
(the code's actual behaviour). -/
def recordsActual : Nat → List Token → Bool
  | _, [] => true
  | d, t :: ts => tokenDepthOkActual d t && recordsActual (depthStep d t.kind) ts

theorem ifKind_depthStep (d : Nat) (b : Bool) (k1 k2 : TokenKind)
    (h1 : depthStep d k1 = d) (h2 : depthStep d k2 = d) :
    depthStep d (if b then k1 else k2) = d := by
  cases b <;> simpa

theorem ifKind_ok (d : Nat) (b : Bool) (k1 k2 : TokenKind) (st sp dep : Nat)
    (h1 : tokenDepthOkActual d ⟨k1, st, sp, dep⟩ = true)
    (h2 : tokenDepthOkActual d ⟨k2, st, sp, dep⟩ = true) :
    tokenDepthOkActual d ⟨if b then k1 else k2, st, sp, dep⟩ = true := by
  cases b <;> simpa

set_option maxHeartbeats 1600000 in
theorem nextToken_depth (s : TokState) (t : Token) (s' : TokState)
    (hd : s.depth < U32) (h : nextToken s = some (t, s')) :
    s'.depth = depthStep s.depth t.kind ∧ s'.depth < U32 ∧
    tokenDepthOkActual s.depth t = true := by
  have hopen : ((s.depth + 1) % U32 + U32 - 1) % U32 = s.depth := by
    unfold U32 at hd ⊢; omega
  have hoplt : (s.depth + 1) % U32 < U32 := by
    unfold U32; omega
  have hcllt : s.depth - 1 < U32 := Nat.lt_of_le_of_lt (Nat.sub_le _ _) hd
  unfold nextToken at h
  split at h
  · -- whitespace token
    cases h
    exact ⟨rfl, hd, rfl⟩
  · split at h
    · -- end of input
      exact absurd h (by simp)
    · -- dispatch on the current byte
      rename_i c heq
      injection h with h
      unfold dispatchChar at h
      by_cases h1 : c = braceO
      case pos =>
        rw [if_pos h1] at h; injection h with hA hB; subst hA; subst hB
        exact ⟨rfl, hoplt, by simp [tokenDepthOkActual, hopen]⟩
      rw [if_neg h1] at h
      by_cases h2 : c = braceC
      case pos =>
        rw [if_pos h2] at h; injection h with hA hB; subst hA; subst hB
        exact ⟨rfl, hcllt, by simp [tokenDepthOkActual]⟩
      rw [if_neg h2] at h
      by_cases h3 : c = brackO
      case pos =>
        rw [if_pos h3] at h; injection h with hA hB; subst hA; subst hB
        exact ⟨rfl, hoplt, by simp [tokenDepthOkActual, hopen]⟩
      rw [if_neg h3] at h
      by_cases h4 : c = brackC
      case pos =>
        rw [if_pos h4] at h; injection h with hA hB; subst hA; subst hB
        exact ⟨rfl, hcllt, by simp [tokenDepthOkActual]⟩
      rw [if_neg h4] at h
      by_cases h5 : c = colonChar
      case pos =>
        rw [if_pos h5] at h; injection h with hA hB; subst hA; subst hB
        exact ⟨rfl, hd, rfl⟩
      rw [if_neg h5] at h
      by_cases h6 : c = commaChar
      case pos =>
        rw [if_pos h6] at h; injection h with hA hB; subst hA; subst hB
        exact ⟨rfl, hd, rfl⟩
      rw [if_neg h6] at h
      by_cases h7 : c = quoteChar
      case pos =>
        rw [if_pos h7] at h; injection h with hA hB; subst hA; subst hB
        exact ⟨(ifKind_depthStep _ _ _ _ rfl rfl).symm, hd,
          ifKind_ok _ _ _ _ _ _ _ rfl rfl⟩
      rw [if_neg h7] at h
      by_cases h8 : c = minusChar ∨ isDigitByte c
      case pos =>
        rw [if_pos h8] at h; injection h with hA hB; subst hA; subst hB
        exact ⟨(ifKind_depthStep _ _ _ _ rfl rfl).symm, hd,
          ifKind_ok _ _ _ _ _ _ _ rfl rfl⟩
      rw [if_neg h8] at h
      by_cases h9 : c = 116
      case pos =>
        rw [if_pos h9] at h; injection h with hA hB; subst hA; subst hB
        exact ⟨(ifKind_depthStep _ _ _ _ rfl rfl).symm, hd,
          ifKind_ok _ _ _ _ _ _ _ rfl rfl⟩
      rw [if_neg h9] at h
      by_cases h10 : c = 102
      case pos =>
        rw [if_pos h10] at h; injection h with hA hB; subst hA; subst hB
        exact ⟨(ifKind_depthStep _ _ _ _ rfl rfl).symm, hd,
          ifKind_ok _ _ _ _ _ _ _ rfl rfl⟩
      rw [if_neg h10] at h
      by_cases h11 : c = 110
      case pos =>
        rw [if_pos h11] at h; injection h with hA hB; subst hA; subst hB
        exact ⟨(ifKind_depthStep _ _ _ _ rfl rfl).symm, hd,
          ifKind_ok _ _ _ _ _ _ _ rfl rfl⟩
      rw [if_neg h11] at h
      injection h with hA hB; subst hA; subst hB
      exact ⟨rfl, hd, rfl⟩

theorem recordsActual_go (fuel : Nat) :
    ∀ s : TokState, s.depth < U32 → recordsActual s.depth (tokenizeAllGo fuel s) = true := by
  induction fuel with
  | zero => intro s _; simp [tokenizeAllGo, recordsActual]
  | succ f ih =>
    intro s hd
    unfold tokenizeAllGo
    split
    · simp [recordsActual]
    · next t s' hnt =>
      have hlem := nextToken_depth s t s' hd hnt
      unfold recordsActual
      rw [hlem.2.2, ← hlem.1, Bool.true_and]
      exact ih s' hlem.2.1

/-- C8, counterexample.  The claim states that *every* open and close token
records the depth as it was before that token's own nesting change
(`recordsPre`).  On the two-byte input consisting of an opening and a
closing brace this fails: the close token is emitted with depth `0`, the
depth *after* its own saturating decrement, while the depth before the
decrement was `1`. -/
theorem c8_counterexample :
    recordsPre 0 (tokenizeAll [braceO, braceC]) = false ∧
    tokenizeAll [braceO, braceC] =
      [⟨.BraceOpen, 0, 1, 0⟩, ⟨.BraceClose, 1, 2, 0⟩] := by
  constructor <;> rfl

/-- C8, amended.  For every input byte sequence, the tokenizer's depth
counter is incremented (as a `u32`) on every opening brace/bracket and
decremented, saturating at zero, on every closing brace/bracket; every
*open* token records the depth before its own increment, while every
*close* token records the depth *after* its own saturating decrement
(`recordsActual`, with `depthStep` the depth update per token kind). -/
theorem c8_depth_recording (input : List Nat) :
    recordsActual 0 (tokenizeAll input) = true :=
  recordsActual_go (input.length + 1) ⟨input, 0, 0⟩ (by show (0 : Nat) < U32; decide)

/-! ### Claim C6: `node_at` -/

theorem binSearchByGo_inl [Inhabited α] (l : List α) (f : α → Ordering) :
    ∀ fuel left right idx, binSearchByGo l f fuel left right = .inl idx →
      f (l.getD idx default) = .eq := by
  intro fuel
  induction fuel with
  | zero => intro left right idx h; simp [binSearchByGo] at h
  | succ fu ih =>
    intro left right idx h
    unfold binSearchByGo at h
    split at h
    · split at h
      · exact ih _ _ _ h
      · exact ih _ _ _ h
      · next hcmp => cases h; exact hcmp
    · simp at h

/-- C6, amended (soundness part): whenever `node_at` over an index built
from a token stream returns a node, that node's range contains the
queried offset.  (The claim's stronger completeness and innermost-ness
parts are refuted by `c6_counterexample`.) -/
theorem c6_node_at_sound (tokens : List Token) (off : Nat) (n : NodeInfo)
    (h : nodeAt (fromTokens tokens) off = some n) :
    n.start ≤ off ∧ off < n.stop := by
  unfold nodeAt at h
  split at h
  · next idx heq =>
    unfold binSearchBy at heq
    have hcmp := binSearchByGo_inl _ _ _ _ _ _ heq
    have h' : (fromTokens tokens)[idx]? = some n := by
      rw [← List.get?_eq_getElem?]; exact h
    have hget : (fromTokens tokens).getD idx default = n := by
      simp [List.getD_eq_getElem?_getD, h']
    rw [hget] at hcmp
    unfold nodeAtCmp at hcmp
    split_ifs at hcmp with hlt hge
    · omega
  · exact absurd h (by simp)

/-- Witness for `c6_node_at_sound`: on the index of the object input
used in the counterexample, `node_at 0` returns the root object node,
and the theorem yields that its range contains offset `0`. -/
theorem c6_witness :
    (⟨NodeKind.Object, 0, 8, 0, none, ParseStatus.Parsed⟩ : NodeInfo).start ≤ 0 ∧
    0 < (⟨NodeKind.Object, 0, 8, 0, none, ParseStatus.Parsed⟩ : NodeInfo).stop :=
  c6_node_at_sound
    (tokenizeAll [braceO, quoteChar, 97, quoteChar, colonChar, spChar, 49, braceC])
    0 _ (by decide)

/-- C6, counterexample.  On the index of the JSON object input
consisting of one key and one number value, offset `5` (the space
between colon and value) lies inside the root object node's range, yet
`node_at 5` returns `none`: the binary search assumes non-overlapping
ranges, but container ranges overlap their children.  Moreover, on a
doubly nested array, `node_at 2` returns the *outer* of the two nested
nodes containing offset `2` (the inner number node's range is strictly
inside the returned node's range), refuting innermost-ness. -/
theorem c6_counterexample :
    ((fromTokens (tokenizeAll
        [braceO, quoteChar, 97, quoteChar, colonChar, spChar, 49, braceC])).any
      (fun n => n.containsOff 5) = true ∧
     nodeAt (fromTokens (tokenizeAll
        [braceO, quoteChar, 97, quoteChar, colonChar, spChar, 49, braceC])) 5 = none) ∧
    (nodeAt (fromTokens (tokenizeAll [brackO, brackO, 49, brackC, brackC])) 2 =
       some ⟨.Array, 1, 4, 1, some 0, .Parsed⟩ ∧
     (fromTokens (tokenizeAll [brackO, brackO, 49, brackC, brackC])).any
       (fun n => n.containsOff 2 && decide (1 < n.start) && decide (n.stop < 4)) = true) := by
  decide

/-! ### Claim C7: scenario on the two-key object input -/

/-- Byte content of the scenario input: an object with key `a` mapped to
the number `1` and key `b` mapped to the array `[2, 3]`. -/
def c7input : List Nat :=
  [braceO, quoteChar, 97, quoteChar, colonChar, spChar, 49, commaChar, spChar,
   quoteChar, 98, quoteChar, colonChar, spChar, brackO, 50, commaChar, spChar, 51,
   brackC, braceC]

/-- C7, counterexample.  In the structural index of the scenario input,
node `1` is the key-`a` string node and node `3` is the key-`b` string
node, but `next_sibling` of node `1` is *not* node `3`: the scan stops at
the nearest node with equal depth and parent, which is the number-`1`
value node. -/
theorem c7_counterexample :
    (fromTokens (tokenizeAll c7input)).get? 1 =
      some ⟨.String, 1, 4, 1, some 0, .Parsed⟩ ∧
    (fromTokens (tokenizeAll c7input)).get? 3 =
      some ⟨.String, 9, 12, 1, some 0, .Parsed⟩ ∧
    nextSibling (fromTokens (tokenizeAll c7input)) 1 ≠ some 3 := by
  decide

/-- C7, amended.  Tokenizing the scenario input and building the index
yields exactly the seven nodes in discovery order — Object, key string
`a`, Number `1`, key string `b`, Array, Number `2`, Number `3` — and
`next_sibling` of the `a` key node is the Number-`1` *value* node (its
nearest same-depth same-parent successor); the `b` key node is reached
by a second `next_sibling` step from there. -/
theorem c7_scenario :
    (fromTokens (tokenizeAll c7input)).map (fun n => (n.kind, n.start, n.stop)) =
      [(.Object, 0, 21), (.String, 1, 4), (.Number, 6, 7), (.String, 9, 12),
       (.Array, 14, 20), (.Number, 15, 16), (.Number, 18, 19)] ∧
    nextSibling (fromTokens (tokenizeAll c7input)) 1 = some 2 ∧
    nextSibling (fromTokens (tokenizeAll c7input)) 2 = some 3 := by
  decide

/-! ### Association lists

`HashMap<usize, String>` (edit overlay, line cache) is modelled as an
association list with replace-on-insert; `HashMap::len` is the list
length (keys stay distinct under `insertA`). -/

def lookupA (l : List (Nat × List Nat)) (k : Nat) : Option (List Nat) :=
  (l.find? (fun p => p.1 == k)).map (·.2)

def insertA (l : List (Nat × List Nat)) (k : Nat) (v : List Nat) : List (Nat × List Nat) :=
  if (l.find? (fun p => p.1 == k)).isSome then
    l.map (fun p => if p.1 == k then (k, v) else p)
  else l ++ [(k, v)]

def eraseA (l : List (Nat × List Nat)) (k : Nat) : List (Nat × List Nat) :=
  l.filter (fun p => p.1 != k)

/-! ### Rope model (`ropey::Rope`)

`ropey` splits a text into lines that keep their terminating newline; a
text with trailing newline has a final empty line, so `len_lines` is the
newline count plus one. -/

/-- Lines of a byte sequence, each keeping its terminating newline; the
list is never empty (an empty text has one empty line). -/
def ropeLines : List Nat → List (List Nat)
  | [] => [[]]
  | c :: rest =>
    if c = nl then [c] :: ropeLines rest
    else
      match ropeLines rest with
      | [] => [[c]]
      | l :: ls => (c :: l) :: ls

/-- `Rope::len_lines`. -/
def ropeLenLines (r : List Nat) : Nat := (ropeLines r).length

/-- `Rope::line(i)` (as a byte sequence). -/
def ropeLine (r : List Nat) (i : Nat) : List Nat := (ropeLines r).getD i []

/-- `Rope::byte_to_line(b)`: index of the line containing byte `b`, i.e.
the number of newlines strictly before `b`. -/
def ropeByteToLine (r : List Nat) (b : Nat) : Nat := (r.take b).count nl

/-- `Rope::line_to_byte(n)`: byte offset of the start of line `n`. -/
def ropeLineToByte (r : List Nat) (n : Nat) : Nat :=
  (((ropeLines r).take n).flatten).length

/-! ### Storage core (`src/buffer/mod.rs`) -/

structure Buffer where
  mmap : Option (List Nat)
  fileSize : Nat
  lineOffsets : List Nat
  lineCache : List (Nat × List Nat)
  cacheOrder : List Nat
  maxCacheLines : Nat
  edits : List (Nat × List Nat)
  rope : Option (List Nat)
  useRope : Bool
  hasPath : Bool
  modified : Bool
deriving DecidableEq, Repr

/-- `Buffer::load_file` threshold: files smaller than 10 MiB get a rope. -/
def ropeThreshold : Nat := 10 * 1024 * 1024

/-- Newline scan of `build_line_index[_with_progress]`: for every newline
byte at index `i` the offset `i + 1` is recorded (progress reporting does
not affect the result). -/
def lineIndexAux : List Nat → Nat → List Nat
  | [], _ => []
  | c :: rest, i =>
    if c = nl then (i + 1) :: lineIndexAux rest (i + 1) else lineIndexAux rest (i + 1)

def buildLineIndex (content : List Nat) : List Nat :=
  0 :: lineIndexAux content 0

/-- The small-file branch of `Buffer::load_file`: rope mode (the mmap is
kept in both branches). -/
def mkRope (content : List Nat) : Buffer :=
  { mmap := some content, fileSize := content.length, lineOffsets := [],
    lineCache := [], cacheOrder := [], maxCacheLines := 1000,
    edits := [], rope := some content, useRope := true,
    hasPath := true, modified := false }

/-- The large-file branch of `Buffer::load_file`: mapped mode with a line
index and no rope. -/
def mkMapped (content : List Nat) : Buffer :=
  { mmap := some content, fileSize := content.length,
    lineOffsets := buildLineIndex content,
    lineCache := [], cacheOrder := [], maxCacheLines := 1000,
    edits := [], rope := none, useRope := false,
    hasPath := true, modified := false }

/-- `Buffer::load_file` on a file with the given byte content. -/
def loadFile (content : List Nat) : Buffer :=
  if content.length < ropeThreshold then mkRope content else mkMapped content

/-- `Buffer::line_count`. -/
def lineCount (b : Buffer) : Nat :=
  if b.useRope then
    match b.rope with
    | some r => ropeLenLines r
    | none => 0
  else b.lineOffsets.length - 1

/-- Byte range `[s, e)` of a list (`&mmap[s..e]` after the clamping the
caller established). -/
def listSlice (m : List Nat) (s e : Nat) : List Nat :=
  (m.drop s).take (e - s)

/-- The mapped-mode tail of `Buffer::get_line`: overlay first, then the
cache, then a read-through from the mapped bytes, else empty. -/
def getLineMapped (b : Buffer) (i : Nat) : List Nat :=
  match lookupA b.edits i with
  | some e => e
  | none =>
    match lookupA b.lineCache i with
    | some c => c
    | none =>
      match b.mmap with
      | some m =>
        match b.lineOffsets.get? i with
        | some s => listSlice m s ((b.lineOffsets.get? (i + 1)).getD m.length)
        | none => []
      | none => []

/-- `Buffer::get_line`.  In rope mode with a rope present the rope
answers (empty beyond `len_lines`); otherwise — including the rope-mode
corner where no rope exists — control falls through to the mapped path,
exactly as in the source. -/
def getLine (b : Buffer) (i : Nat) : List Nat :=
  if b.useRope then
    match b.rope with
    | some r => if ropeLenLines r ≤ i then [] else ropeLine r i
    | none => getLineMapped b i
  else getLineMapped b i

/-- The cache-eviction loop of `read_line_lazy`: drop the front of the
LRU order (and its cache entry) while over capacity. -/
def evictLoop (cache : List (Nat × List Nat)) (order : List Nat) (maxLines : Nat) :
    List (Nat × List Nat) × List Nat :=
  if maxLines < order.length then
    match order with
    | [] => (cache, order)
    | o :: rest => evictLoop (eraseA cache o) rest maxLines
  else (cache, order)
termination_by order.length
decreasing_by simp_all [List.length_cons]

/-- `Buffer::read_line_lazy`: overlay, then cache (with LRU touch), then
a cache-filling read from the mapped bytes. -/
def readLineLazy (b : Buffer) (i : Nat) : Option (List Nat) × Buffer :=
  match lookupA b.edits i with
  | some e => (some e, b)
  | none =>
    match lookupA b.lineCache i with
    | some c =>
      (some c, { b with cacheOrder := (b.cacheOrder.filter (· != i)) ++ [i] })
    | none =>
      match b.mmap with
      | none => (none, b)
      | some m =>
        match b.lineOffsets.get? i with
        | none => (none, b)
        | some s =>
          let line := listSlice m s ((b.lineOffsets.get? (i + 1)).getD m.length)
          let r := evictLoop (insertA b.lineCache i line) (b.cacheOrder ++ [i])
                      b.maxCacheLines
          (some line, { b with lineCache := r.1, cacheOrder := r.2 })

/-- `Buffer::get_line_cached`. -/
def getLineCached (b : Buffer) (i : Nat) : List Nat × Buffer :=
  if b.useRope then (getLine b i, b)
  else
    match readLineLazy b i with
    | (l, b2) => (l.getD [], b2)

/-- `Buffer::get_visible_lines`: concatenate up to `count` lines from
`start`, stopping at `line_count` (the `break`). -/
def getVisibleLines (b : Buffer) (start count : Nat) : List Nat :=
  (((List.range count).takeWhile (fun i => decide (start + i < lineCount b))).map
    (fun i => getLine b (start + i))).flatten

/-- `Buffer::byte_offset_to_line`: rope query when a rope exists, else
binary search over the line offsets (`Err` insertion points are
saturating-decremented). -/
def byteOffsetToLine (b : Buffer) (off : Nat) : Nat :=
  match b.rope with
  | some r => ropeByteToLine r (min off r.length)
  | none =>
    match binSearchBy b.lineOffsets (fun x => compare x off) with
    | .inl i => i
    | .inr i => i - 1

/-- `Buffer::line_to_byte_offset`. -/
def lineToByteOffset (b : Buffer) (line : Nat) : Nat :=
  match b.rope with
  | some r => if ropeLenLines r ≤ line then r.length else ropeLineToByte r line
  | none => (b.lineOffsets.get? line).getD b.fileSize

/-- `Buffer::slice` (keyed on rope presence, clamping both ends). -/
def sliceB (b : Buffer) (s e : Nat) : List Nat :=
  match b.rope with
  | some r =>
    if min e r.length ≤ min s r.length then []
    else listSlice r (min s r.length) (min e r.length)
  | none =>
    match b.mmap with
    | some m =>
      if min e m.length ≤ min s m.length then []
      else listSlice m (min s m.length) (min e m.length)
    | none => []

/-- `Buffer::char_at` (in rope mode ropey's `byte_to_char`/`char` pair;
on ASCII content this is the byte at the offset). -/
def charAt (b : Buffer) (off : Nat) : Option Nat :=
  match b.rope with
  | some r => if r.length ≤ off then none else r.get? off
  | none =>
    match b.mmap with
    | some m => m.get? off
    | none => none

/-- `Buffer::insert`. -/
def insertB (b : Buffer) (offset : Nat) (text : List Nat) : Except String Buffer :=
  if b.useRope then
    match b.rope with
    | none => .error "No rope available"
    | some r =>
      .ok { b with
              rope := some (r.take (min offset r.length) ++ text ++
                            r.drop (min offset r.length)),
              modified := true }
  else
    if byteOffsetToLine b offset < lineCount b then
      if offset - lineToByteOffset b (byteOffsetToLine b offset) ≤
          (getLine b (byteOffsetToLine b offset)).length then
        .ok { b with
                edits := insertA b.edits (byteOffsetToLine b offset)
                  ((getLine b (byteOffsetToLine b offset)).take
                      (offset - lineToByteOffset b (byteOffsetToLine b offset)) ++
                   text ++
                   (getLine b (byteOffsetToLine b offset)).drop
                      (offset - lineToByteOffset b (byteOffsetToLine b offset))),
                modified := true }
      else .ok { b with modified := true }
    else .ok { b with modified := true }

/-- The rope branch of `Buffer::delete` (also reached through the
recursive call after escalation, where `start < end` and the rope was
just installed). -/
def deleteViaRope (b : Buffer) (start stop : Nat) : Except String Buffer :=
  if stop ≤ start then .ok b
  else
    match b.rope with
    | none => .error "No rope available"
    | some r =>
      .ok { b with
              rope := some (r.take (min start r.length) ++ r.drop (min stop r.length)),
              modified := true }

/-- `Buffer::delete`.  Mapped mode: a same-line delete patches the line
into the overlay; a multi-line delete escalates to a rope built from the
mapped bytes only when the overlay holds more than 100 entries, and
otherwise does nothing beyond setting the modified flag. -/
def deleteB (b : Buffer) (start stop : Nat) : Except String Buffer :=
  if stop ≤ start then .ok b
  else if b.useRope then deleteViaRope b start stop
  else
    if byteOffsetToLine b start = byteOffsetToLine b stop then
      if start - lineToByteOffset b (byteOffsetToLine b start) <
          (getLine b (byteOffsetToLine b start)).length then
        .ok { b with
                edits := insertA b.edits (byteOffsetToLine b start)
                  ((getLine b (byteOffsetToLine b start)).take
                      (start - lineToByteOffset b (byteOffsetToLine b start)) ++
                   (getLine b (byteOffsetToLine b start)).drop
                      (min (stop - lineToByteOffset b (byteOffsetToLine b start))
                        (getLine b (byteOffsetToLine b start)).length)),
                modified := true }
      else .ok { b with modified := true }
    else if 100 < b.edits.length then
      match b.mmap with
      | some m => deleteViaRope { b with rope := some m, useRope := true } start stop
      | none => .ok { b with modified := true }
    else .ok { b with modified := true }

/-- `Buffer::replace`. -/
def replaceB (b : Buffer) (start stop : Nat) (text : List Nat) : Except String Buffer :=
  match deleteB b start stop with
  | .error msg => .error msg
  | .ok b2 => insertB b2 start text

/-! ### Save engine (`Buffer::save` / its background thread) -/

/-- Content selection of `Buffer::save` before spawning the thread: a
mapped buffer with a non-empty overlay materializes every line through
`get_line`; otherwise the rope is streamed; with neither, the background
task fails with `No content to save`; without a path `save` bails out. -/
def savedBytes (b : Buffer) : Except String (List Nat) :=
  if b.hasPath then
    if b.useRope = false ∧ b.edits ≠ [] then
      .ok (((List.range (lineCount b)).map (fun i => getLine b i)).flatten)
    else
      match b.rope with
      | some r => .ok r
      | none => .error "No content to save"
  else .error "No file path set"

/-- Steps of the background write that can fail. -/
inductive SaveStep where
  | createTmp | writeAll | flushW | renameStep
deriving DecidableEq, Repr

/-- On-disk state: the bytes at the original path and at the `.tmp` path. -/
structure SaveFs where
  orig : List Nat
  tmp : Option (List Nat)
deriving DecidableEq, Repr

structure SaveOutcome where
  fs : SaveFs
  progress : Nat
  inProgress : Bool
deriving DecidableEq, Repr

/-- The background thread spawned by `Buffer::save`: create the temp
file, write the content, flush, atomically rename over the original;
`failAt` says which step (if any) fails, `written` how many bytes a
failing write managed to emit.  On any failure the progress counter is
stored as 0; the in-progress flag is always cleared at the end. -/
def runSaveThread (content : List Nat) (fs : SaveFs) (failAt : Option SaveStep)
    (written : Nat) : SaveOutcome :=
  -- progress 10
  if failAt = some .createTmp then ⟨fs, 0, false⟩
  else
    -- temp file created; progress 20
    if failAt = some .writeAll then ⟨⟨fs.orig, some (content.take written)⟩, 0, false⟩
    else
      -- content fully written (progress 20–90)
      if failAt = some .flushW then ⟨⟨fs.orig, some content⟩, 0, false⟩
      else
        -- flushed; progress 90
        if failAt = some .renameStep then ⟨⟨fs.orig, some content⟩, 0, false⟩
        else
          -- rename succeeded; progress 100
          ⟨⟨content, none⟩, 100, false⟩

/-! ### Auxiliary list lemmas -/

theorem takeWhile_all (p : Nat → Bool) (l : List Nat) (h : ∀ a ∈ l, p a = true) :
    l.takeWhile p = l :=
  List.takeWhile_eq_self_iff.mpr h

theorem takeWhile_range_lt :
    ∀ (n K : Nat), (List.range n).takeWhile (fun i => decide (i < K)) =
      List.range (min K n) := by
  intro n
  induction n with
  | zero =>
    intro K
    simp
  | succ n ih =>
    intro K
    rw [List.range_succ_eq_map, List.takeWhile_cons]
    cases K with
    | zero =>
      simp
    | succ K =>
      rw [if_pos (by simp), List.takeWhile_map]
      have hp : ((fun i => decide (i < K + 1)) ∘ Nat.succ) =
          (fun i => decide (i < K)) := by
        funext j
        exact decide_eq_decide.mpr (by omega)
      rw [hp, ih K, ← List.range_succ_eq_map, Nat.succ_min_succ]

theorem map_getD_range (ls : List (List Nat)) :
    (List.range ls.length).map (fun i => ls.getD i []) = ls := by
  induction ls with
  | nil => rfl
  | cons x xs ih =>
    rw [List.length_cons, List.range_succ_eq_map, List.map_cons, List.map_map]
    simp only [List.getD_cons_zero, Function.comp_def, Nat.succ_eq_add_one,
      List.getD_cons_succ]
    rw [ih]

theorem pairwise_getD_lt (l : List Nat) (d : Nat) (hp : l.Pairwise (· < ·)) {i j : Nat}
    (hij : i < j) (hj : j < l.length) : l.getD i d < l.getD j d := by
  have hi : i < l.length := Nat.lt_trans hij hj
  rw [List.getD_eq_getElem _ _ hi, List.getD_eq_getElem _ _ hj]
  exact List.pairwise_iff_get.mp hp ⟨i, hi⟩ ⟨j, hj⟩ hij

/-! ### Binary-search lemmas -/

/-- On a strictly increasing list, the binary search for the value at
index `n` returns `Ok n` whenever the search interval contains `n` and
the fuel covers the interval. -/
theorem binSearchByGo_finds (l : List Nat) (hp : l.Pairwise (· < ·)) (n : Nat)
    (hn : n < l.length) :
    ∀ fuel left right, left ≤ n → n < right → right ≤ l.length →
      right - left ≤ fuel →
      binSearchByGo l (fun x => compare x (l.getD n default)) fuel left right = .inl n := by
  intro fuel
  induction fuel with
  | zero => intro left right h1 h2 h3 h4; omega
  | succ fu ih =>
    intro left right h1 h2 h3 h4
    have hlr : left < right := by omega
    have hmidlt : left + (right - left) / 2 < right := by omega
    have hmidlen : left + (right - left) / 2 < l.length := by omega
    unfold binSearchByGo
    rw [if_pos hlr]
    rcases Nat.lt_trichotomy (l.getD (left + (right - left) / 2) default)
      (l.getD n default) with hlt | heq | hgt
    · have hc : compare (l.getD (left + (right - left) / 2) default) (l.getD n default) =
          Ordering.lt := Nat.compare_eq_lt.mpr hlt
      simp only [hc]
      have hmn : left + (right - left) / 2 < n := by
        by_contra hcon
        push_neg at hcon
        rcases Nat.eq_or_lt_of_le hcon with he | hl
        · rw [he] at hlt; omega
        · exact absurd (pairwise_getD_lt l default hp hl hmidlen) (by omega)
      exact ih (left + (right - left) / 2 + 1) right (by omega) h2 h3 (by omega)
    · have hc : compare (l.getD (left + (right - left) / 2) default) (l.getD n default) =
          Ordering.eq := Nat.compare_eq_eq.mpr heq
      simp only [hc]
      have : left + (right - left) / 2 = n := by
        by_contra hne
        rcases Nat.lt_or_ge (left + (right - left) / 2) n with hl | hge
        · exact absurd (pairwise_getD_lt l default hp hl hn) (by omega)
        · have hl : n < left + (right - left) / 2 := by omega
          exact absurd (pairwise_getD_lt l default hp hl hmidlen) (by omega)
      rw [this]
    · have hc : compare (l.getD (left + (right - left) / 2) default) (l.getD n default) =
          Ordering.gt := Nat.compare_eq_gt.mpr hgt
      simp only [hc]
      have hmn : n < left + (right - left) / 2 := by
        by_contra hcon
        push_neg at hcon
        rcases Nat.eq_or_lt_of_le hcon with he | hl
        · rw [← he] at hgt; omega
        · exact absurd (pairwise_getD_lt l default hp hl hn) (by omega)
      exact ih left (left + (right - left) / 2) h1 hmn (by omega) (by omega)

/-- Both results of the binary search stay within the searched interval. -/
theorem binSearchByGo_le [Inhabited α] (l : List α) (f : α → Ordering) :
    ∀ fuel left right, left ≤ right →
      (∀ i, binSearchByGo l f fuel left right = .inl i → i < right) ∧
      (∀ j, binSearchByGo l f fuel left right = .inr j → j ≤ right) := by
  intro fuel
  induction fuel with
  | zero =>
    intro left right hle
    constructor
    · intro i h; unfold binSearchByGo at h; cases h
    · intro j h; unfold binSearchByGo at h; cases h; omega
  | succ fu ih =>
    intro left right hle
    unfold binSearchByGo
    split
    · next hlr =>
      have hmid : left + (right - left) / 2 < right := by omega
      split
      · constructor
        · intro i h
          exact (ih (left + (right - left) / 2 + 1) right (by omega)).1 i h
        · intro j h
          exact (ih (left + (right - left) / 2 + 1) right (by omega)).2 j h
      · constructor
        · intro i h
          exact Nat.lt_of_lt_of_le
            ((ih left (left + (right - left) / 2) (by omega)).1 i h) (by omega)
        · intro j h
          exact Nat.le_trans
            ((ih left (left + (right - left) / 2) (by omega)).2 j h) (by omega)
      · constructor
        · intro i h; cases h; omega
        · intro j h; cases h
    · constructor
      · intro i h; cases h
      · intro j h; cases h; omega

/-! ### Line-index lemmas -/

theorem lineIndexAux_cons (c : Nat) (rest : List Nat) (i : Nat) :
    lineIndexAux (c :: rest) i =
      if c = nl then (i + 1) :: lineIndexAux rest (i + 1)
      else lineIndexAux rest (i + 1) := rfl

theorem lineIndexAux_lt (xs : List Nat) : ∀ i x, x ∈ lineIndexAux xs i → i < x := by
  induction xs with
  | nil => intro i x h; simp [lineIndexAux] at h
  | cons c rest ih =>
    intro i x h
    unfold lineIndexAux at h
    split at h
    · rcases List.mem_cons.mp h with rfl | h2
      · omega
      · have := ih (i + 1) x h2; omega
    · have := ih (i + 1) x h; omega

theorem lineIndexAux_le (xs : List Nat) : ∀ i x, x ∈ lineIndexAux xs i →
    x ≤ i + xs.length := by
  induction xs with
  | nil => intro i x h; simp [lineIndexAux] at h
  | cons c rest ih =>
    intro i x h
    unfold lineIndexAux at h
    rw [List.length_cons]
    split at h
    · rcases List.mem_cons.mp h with rfl | h2
      · omega
      · have := ih (i + 1) x h2; omega
    · have := ih (i + 1) x h; omega

theorem lineIndexAux_pairwise (xs : List Nat) :
    ∀ i, (lineIndexAux xs i).Pairwise (· < ·) := by
  induction xs with
  | nil => intro i; simp [lineIndexAux]
  | cons c rest ih =>
    intro i
    unfold lineIndexAux
    split
    · exact List.Pairwise.cons (fun x hx => lineIndexAux_lt rest (i + 1) x hx) (ih (i + 1))
    · exact ih (i + 1)

theorem buildLineIndex_pairwise (content : List Nat) :
    (buildLineIndex content).Pairwise (· < ·) :=
  List.Pairwise.cons (fun x hx => lineIndexAux_lt content 0 x hx)
    (lineIndexAux_pairwise content 0)

theorem buildLineIndex_le (content : List Nat) :
    ∀ x ∈ buildLineIndex content, x ≤ content.length := by
  intro x hx
  rcases List.mem_cons.mp hx with rfl | h2
  · omega
  · have := lineIndexAux_le content 0 x h2; omega

theorem lineIndexAux_append (xs ys : List Nat) :
    ∀ i, lineIndexAux (xs ++ ys) i =
      lineIndexAux xs i ++ lineIndexAux ys (i + xs.length) := by
  induction xs with
  | nil => intro i; simp [lineIndexAux]
  | cons c rest ih =>
    intro i
    rw [List.cons_append, lineIndexAux_cons, lineIndexAux_cons]
    have harith : i + 1 + rest.length = i + (c :: rest).length := by
      rw [List.length_cons]; omega
    by_cases hc : c = nl
    · rw [if_pos hc, if_pos hc, ih (i + 1), harith, List.cons_append]
    · rw [if_neg hc, if_neg hc, ih (i + 1), harith]

theorem lineIndexAux_no_nl (xs : List Nat) (h : ∀ c ∈ xs, c ≠ nl) :
    ∀ i, lineIndexAux xs i = [] := by
  induction xs with
  | nil => intro i; rfl
  | cons c rest ih =>
    intro i
    unfold lineIndexAux
    split
    · next hc => exact absurd hc (h c (List.mem_cons_self c rest))
    · exact ih (fun x hx => h x (List.mem_cons_of_mem c hx)) (i + 1)

theorem lineIndexAux_getLast (xs : List Nat) :
    ∀ i, xs.getLast? = some nl → (lineIndexAux xs i).getLast? = some (i + xs.length) := by
  induction xs with
  | nil => intro i h; simp at h
  | cons c rest ih =>
    intro i h
    match hr : rest with
    | [] =>
      simp only [List.getLast?_singleton, Option.some_inj] at h
      unfold lineIndexAux
      rw [if_pos h]
      rfl
    | r :: rs =>
      rw [List.getLast?_cons_cons] at h
      unfold lineIndexAux
      have htail : (lineIndexAux (r :: rs) (i + 1)).getLast? =
          some (i + 1 + (r :: rs).length) := ih (i + 1) h
      have hne : lineIndexAux (r :: rs) (i + 1) ≠ [] := by
        intro hcon; rw [hcon] at htail; simp at htail
      have harith : i + 1 + (r :: rs).length = i + (c :: r :: rs).length := by
        simp [List.length_cons]; omega
      obtain ⟨y, ys2, hyy⟩ := List.exists_cons_of_ne_nil hne
      split
      · rw [hyy, List.getLast?_cons_cons, ← hyy, htail, harith]
      · rw [htail, harith]

/-! ### Rope lemmas -/

theorem ropeLines_cons (c : Nat) (rest : List Nat) :
    ropeLines (c :: rest) =
      if c = nl then [c] :: ropeLines rest
      else
        match ropeLines rest with
        | [] => [[c]]
        | l :: ls => (c :: l) :: ls := rfl

theorem ropeLines_ne_nil (r : List Nat) : ropeLines r ≠ [] := by
  induction r with
  | nil => simp [ropeLines]
  | cons c rest ih =>
    rw [ropeLines_cons]
    by_cases hc : c = nl
    · simp [hc]
    · rw [if_neg hc]
      cases hM : ropeLines rest with
      | nil => simp
      | cons l ls => simp

theorem ropeLines_flatten (r : List Nat) : (ropeLines r).flatten = r := by
  induction r with
  | nil => rfl
  | cons c rest ih =>
    rw [ropeLines_cons]
    by_cases hc : c = nl
    · rw [if_pos hc]
      simp [List.flatten_cons, ih, hc]
    · rw [if_neg hc]
      cases hM : ropeLines rest with
      | nil => exact absurd hM (ropeLines_ne_nil rest)
      | cons l ls =>
        rw [hM] at ih
        simp only [List.flatten_cons] at ih ⊢
        rw [List.cons_append, ih]

theorem ropeLines_length (r : List Nat) : (ropeLines r).length = r.count nl + 1 := by
  induction r with
  | nil => simp [ropeLines]
  | cons c rest ih =>
    rw [ropeLines_cons]
    by_cases hc : c = nl
    · rw [if_pos hc]
      simp [List.count_cons, hc, ih]
    · rw [if_neg hc]
      cases hM : ropeLines rest with
      | nil => exact absurd hM (ropeLines_ne_nil rest)
      | cons l ls =>
        rw [hM] at ih
        simp only [List.length_cons] at ih ⊢
        rw [List.count_cons]
        simp [hc, ih]

theorem ropeLines_count_take (r : List Nat) :
    ∀ n, n < (ropeLines r).length → (((ropeLines r).take n).flatten).count nl = n := by
  induction r with
  | nil =>
    intro n hn
    simp only [ropeLines, List.length_cons, List.length_nil] at hn
    interval_cases n
    · simp
  | cons c rest ih =>
    intro n hn
    rw [ropeLines_cons] at hn ⊢
    by_cases hc : c = nl
    · rw [if_pos hc] at hn ⊢
      cases n with
      | zero => simp
      | succ m =>
        have hm : m < (ropeLines rest).length := by
          simp only [List.length_cons] at hn; omega
        rw [List.take_succ_cons, List.flatten_cons, List.count_append, ih m hm]
        simp [hc, List.count_cons]
        omega
    · rw [if_neg hc] at hn ⊢
      cases hM : ropeLines rest with
      | nil => exact absurd hM (ropeLines_ne_nil rest)
      | cons l ls =>
        simp only [hM] at hn ⊢
        cases n with
        | zero => simp
        | succ m =>
          have hn2 : m + 1 < (ropeLines rest).length := by
            rw [hM]; simpa using hn
          have hih := ih (m + 1) hn2
          rw [hM, List.take_succ_cons, List.flatten_cons] at hih
          rw [List.take_succ_cons, List.flatten_cons, List.cons_append,
            List.count_cons]
          simp [hc, hih]

theorem ropeLines_no_nl (r : List Nat) (h : ∀ c ∈ r, c ≠ nl) : ropeLines r = [r] := by
  induction r with
  | nil => rfl
  | cons c rest ih =>
    rw [ropeLines_cons, if_neg (h c (List.mem_cons_self c rest))]
    rw [ih (fun x hx => h x (List.mem_cons_of_mem c hx))]

/-- Rendering the full visible range of a rope-mode buffer yields the
whole rope content. -/
theorem ropeRender (b : Buffer) (r : List Nat) (hu : b.useRope = true)
    (hr : b.rope = some r) :
    getVisibleLines b 0 (lineCount b) = r := by
  have hlc : lineCount b = ropeLenLines r := by
    unfold lineCount
    rw [hu, if_pos rfl, hr]
  unfold getVisibleLines
  rw [hlc]
  rw [takeWhile_all (fun i => decide (0 + i < ropeLenLines r))
    (List.range (ropeLenLines r)) ?hall]
  case hall =>
    intro a ha
    simpa using List.mem_range.mp ha
  have hmap : (List.range (ropeLenLines r)).map (fun i => getLine b (0 + i)) =
      (List.range (ropeLenLines r)).map (fun i => (ropeLines r).getD i []) := by
    apply List.map_congr_left
    intro i hi
    have hilt : i < ropeLenLines r := List.mem_range.mp hi
    rw [Nat.zero_add]
    unfold getLine
    rw [hu, if_pos rfl, hr]
    show (if ropeLenLines r ≤ i then [] else ropeLine r i) = (ropeLines r).getD i []
    rw [if_neg (by omega)]
    rfl
  rw [hmap]
  have : ropeLenLines r = (ropeLines r).length := rfl
  rw [this, map_getD_range, ropeLines_flatten]

/-- Start-of-line offsets are bounded by the text length. -/
theorem ropeLineToByte_le (content : List Nat) (n : Nat) :
    ropeLineToByte content n ≤ content.length := by
  have hsplit : (ropeLines content).flatten =
      ((ropeLines content).take n).flatten ++ ((ropeLines content).drop n).flatten := by
    rw [← List.flatten_append, List.take_append_drop]
  calc ropeLineToByte content n = (((ropeLines content).take n).flatten).length := rfl
    _ ≤ content.length := by
        conv_rhs => rw [← ropeLines_flatten content]
        rw [hsplit, List.length_append]
        omega

/-! ### Claim C9: monotonic offsets and the line/byte round trip -/

/-- C9: the `line_offsets` array built by the newline scan is strictly
increasing and starts with offset `0`; and on a freshly loaded buffer —
in rope mode as well as mapped mode — converting a valid line number to
its byte offset and back yields the same line number. -/
theorem c9_monotonic_roundtrip (content : List Nat) (n : Nat) :
    (buildLineIndex content).Pairwise (· < ·) ∧
    (buildLineIndex content).head? = some 0 ∧
    (n < lineCount (loadFile content) →
      byteOffsetToLine (loadFile content) (lineToByteOffset (loadFile content) n) = n) := by
  refine ⟨buildLineIndex_pairwise content, rfl, ?_⟩
  intro hn
  unfold loadFile at hn ⊢
  by_cases hsz : content.length < ropeThreshold
  · -- rope mode
    rw [if_pos hsz] at hn ⊢
    have hlc : lineCount (mkRope content) = ropeLenLines content := rfl
    rw [hlc] at hn
    have hl2b : lineToByteOffset (mkRope content) n = ropeLineToByte content n := by
      unfold lineToByteOffset
      show (if ropeLenLines content ≤ n then content.length
            else ropeLineToByte content n) = _
      rw [if_neg (by omega)]
    rw [hl2b]
    unfold byteOffsetToLine
    show ropeByteToLine content (min (ropeLineToByte content n) content.length) = n
    rw [Nat.min_eq_left (ropeLineToByte_le content n)]
    have hsplit : ((ropeLines content).take n).flatten ++
        ((ropeLines content).drop n).flatten = content := by
      rw [← List.flatten_append, List.take_append_drop, ropeLines_flatten]
    have key : ((((ropeLines content).take n).flatten ++
        ((ropeLines content).drop n).flatten).take (ropeLineToByte content n)) =
        ((ropeLines content).take n).flatten := List.take_left' rfl
    rw [hsplit] at key
    calc ropeByteToLine content (ropeLineToByte content n)
        = (content.take (ropeLineToByte content n)).count nl := rfl
      _ = (((ropeLines content).take n).flatten).count nl := by rw [key]
      _ = n := ropeLines_count_take content n hn
  · -- mapped mode
    rw [if_neg hsz] at hn ⊢
    have hlc : lineCount (mkMapped content) = (buildLineIndex content).length - 1 := rfl
    rw [hlc] at hn
    have hL : 1 ≤ (buildLineIndex content).length := by
      unfold buildLineIndex
      simp
    have hnlen : n < (buildLineIndex content).length := by omega
    have hget : (buildLineIndex content).get? n =
        some ((buildLineIndex content).getD n default) := by
      rw [List.get?_eq_getElem?, List.getElem?_eq_getElem hnlen,
        List.getD_eq_getElem _ _ hnlen]
    have hl2b : lineToByteOffset (mkMapped content) n =
        (buildLineIndex content).getD n default := by
      unfold lineToByteOffset
      show ((buildLineIndex content).get? n).getD (mkMapped content).fileSize = _
      rw [hget]
      rfl
    rw [hl2b]
    unfold byteOffsetToLine
    show (match binSearchBy (buildLineIndex content)
        (fun x => compare x ((buildLineIndex content).getD n default)) with
      | .inl i => i
      | .inr i => i - 1) = n
    unfold binSearchBy
    rw [binSearchByGo_finds (buildLineIndex content) (buildLineIndex_pairwise content)
      n hnlen ((buildLineIndex content).length + 1) 0 (buildLineIndex content).length
      (by omega) hnlen (le_refl _) (by omega)]

/-- Witness for `c9_monotonic_roundtrip` at the three-byte content with
one newline, line `1`. -/
theorem c9_witness :
    byteOffsetToLine (loadFile [97, nl, 98])
      (lineToByteOffset (loadFile [97, nl, 98]) 1) = 1 :=
  (c9_monotonic_roundtrip [97, nl, 98] 1).2.2 (by decide)

/-! ### Claim C4: overlay precedence -/

/-- C4: in mapped mode, once line `i` has an edit-overlay entry,
`get_line` returns exactly that entry — whatever the LRU cache and the
mapped bytes hold — and the cache-populating `get_line_cached` returns
the same entry while leaving the buffer unchanged, so repeated reads of
either kind keep returning the overlay entry. -/
theorem c4_overlay_precedence (b : Buffer) (i : Nat) (s : List Nat)
    (hm : b.useRope = false) (he : lookupA b.edits i = some s) :
    getLine b i = s ∧ getLineCached b i = (s, b) := by
  constructor
  · unfold getLine
    simp only [hm, Bool.false_eq_true, if_false]
    unfold getLineMapped
    rw [he]
  · unfold getLineCached
    simp only [hm, Bool.false_eq_true, if_false]
    show (match readLineLazy b i with | (l, b2) => (l.getD [], b2)) = (s, b)
    unfold readLineLazy
    rw [he]
    rfl

/-- Overlay buffer used by the C4 witness: an overlay entry, a stale
cache entry and different mapped bytes all present for line `0`. -/
def c4buf : Buffer :=
  { mkMapped [97, nl] with
    edits := [(0, [122])]
    lineCache := [(0, [99])]
    cacheOrder := [0] }

/-- Witness for `c4_overlay_precedence` on `c4buf`: the overlay entry
`[122]` wins over both the cached `[99]` and the mapped `[97, nl]`. -/
theorem c4_witness :
    getLine c4buf 0 = [122] ∧ getLineCached c4buf 0 = ([122], c4buf) :=
  c4_overlay_precedence c4buf 0 [122] (by decide) (by decide)

/-! ### Claim C10: mapped-mode mutations never touch the line index -/

theorem lineCount_congr (b' b : Buffer) (hu : b'.useRope = b.useRope)
    (hl : b'.lineOffsets = b.lineOffsets) (hr : b'.rope = b.rope) :
    lineCount b' = lineCount b := by
  unfold lineCount
  rw [hu, hl, hr]

/-- C10: a mapped-mode insert (newlines in the text included) keeps the
buffer in mapped mode and changes neither `line_offsets`, `line_count`
nor the mapped bytes — the edit lands in the overlay only; the same
frame condition holds for every delete that does not escalate to rope
mode. -/
theorem c10_mapped_frame (b : Buffer) (off start stop : Nat) (text : List Nat)
    (hm : b.useRope = false) :
    (∀ b', insertB b off text = .ok b' →
      b'.useRope = false ∧ b'.lineOffsets = b.lineOffsets ∧
      lineCount b' = lineCount b ∧ b'.mmap = b.mmap) ∧
    (∀ b', deleteB b start stop = .ok b' → b'.useRope = false →
      b'.lineOffsets = b.lineOffsets ∧ lineCount b' = lineCount b ∧
      b'.mmap = b.mmap) := by
  constructor
  · intro b' h
    unfold insertB at h
    simp only [hm, Bool.false_eq_true, if_false] at h
    split_ifs at h <;>
      (injection h with h; subst h;
       exact ⟨rfl, rfl, lineCount_congr _ b hm.symm rfl rfl, rfl⟩)
  · intro b' h hb'
    unfold deleteB at h
    simp only [hm, Bool.false_eq_true, if_false] at h
    split_ifs at h
    · injection h with h; subst h; exact ⟨rfl, rfl, rfl⟩
    · injection h with h; subst h
      exact ⟨rfl, lineCount_congr _ b hm.symm rfl rfl, rfl⟩
    · injection h with h; subst h
      exact ⟨rfl, lineCount_congr _ b hm.symm rfl rfl, rfl⟩
    · -- escalation branch: the result is in rope mode, contradicting `hb'`
      split at h
      · next m hmm =>
        unfold deleteViaRope at h
        split_ifs at h
        split at h
        · exact absurd h (by simp)
        · injection h with h; subst h; simp at hb'
      · injection h with h; subst h
        exact ⟨rfl, lineCount_congr _ b hm.symm rfl rfl, rfl⟩
    · injection h with h; subst h
      exact ⟨rfl, lineCount_congr _ b hm.symm rfl rfl, rfl⟩

/-- Witness for `c10_mapped_frame`: inserting a byte at offset `0` of a
mapped two-line buffer records an overlay entry and leaves the line
index, line count and mapped bytes unchanged. -/
def c10buf : Buffer :=
  { mkMapped [97, nl, 98] with
    edits := [(0, [122, 97, nl])]
    modified := true }

theorem c10_witness :
    c10buf.useRope = false ∧
    c10buf.lineOffsets = (mkMapped [97, nl, 98]).lineOffsets ∧
    lineCount c10buf = lineCount (mkMapped [97, nl, 98]) ∧
    c10buf.mmap = (mkMapped [97, nl, 98]).mmap :=
  (c10_mapped_frame (mkMapped [97, nl, 98]) 0 0 0 [122] rfl).1 c10buf (by rfl)

/-! ### Claim C2: multi-line delete in mapped mode -/

/-- C2, amended.  A mapped-mode delete spanning two different lines
never fails, but it escalates to rope mode only when the overlay already
holds more than 100 entries; below that threshold it leaves the buffer
in mapped mode with all content state unchanged, setting only the
modified flag.  When it does escalate, the rope is rebuilt from the
*original mapped bytes* — the overlay entries are not applied — and the
clamped range `[start, stop)` is removed from those bytes. -/
theorem c2_multiline_delete (b : Buffer) (start stop : Nat)
    (hm : b.useRope = false)
    (hse : start < stop)
    (hml : byteOffsetToLine b start ≠ byteOffsetToLine b stop) :
    (b.edits.length ≤ 100 → deleteB b start stop = .ok { b with modified := true }) ∧
    (∀ m, 100 < b.edits.length → b.mmap = some m →
      deleteB b start stop =
        .ok { b with
                rope := some (m.take (min start m.length) ++ m.drop (min stop m.length)),
                useRope := true, modified := true }) := by
  have hns : ¬ stop ≤ start := by omega
  constructor
  · intro hle
    unfold deleteB
    rw [if_neg hns]
    simp only [hm, Bool.false_eq_true, if_false]
    rw [if_neg hml, if_neg (by omega : ¬ 100 < b.edits.length)]
  · intro m hgt hmap
    unfold deleteB
    rw [if_neg hns]
    simp only [hm, Bool.false_eq_true, if_false]
    rw [if_neg hml, if_pos hgt]
    split
    · next m2 hm2 =>
      rw [hmap] at hm2
      injection hm2 with hm2
      subst hm2
      unfold deleteViaRope
      rw [if_neg hns]
    · next hnone =>
      rw [hmap] at hnone
      exact absurd hnone (by simp)

/-- Witness for `c2_multiline_delete` (sub-threshold branch): deleting
`[1, 4)` of a mapped two-line buffer spans two lines and only sets the
modified flag. -/
theorem c2_witness :
    deleteB (mkMapped [97, nl, 98, nl]) 1 4 =
      .ok { mkMapped [97, nl, 98, nl] with modified := true } :=
  (c2_multiline_delete (mkMapped [97, nl, 98, nl]) 1 4 rfl (by omega)
    (by decide)).1 (by decide)

/-- C2, counterexample.  The claim says every mapped-mode multi-line
delete escalates to rope mode and removes the range.  On a freshly
mapped two-line buffer (overlay far below the 100-entry threshold),
deleting `[0, 3)` spans two lines, yet the buffer stays in mapped mode,
no state other than the modified flag changes, and rendering still
yields the original content — the delete is silently dropped. -/
theorem c2_counterexample :
    deleteB (mkMapped [97, nl, 98, nl]) 0 3 =
      .ok { mkMapped [97, nl, 98, nl] with modified := true } ∧
    byteOffsetToLine (mkMapped [97, nl, 98, nl]) 0 ≠
      byteOffsetToLine (mkMapped [97, nl, 98, nl]) 3 ∧
    ({ mkMapped [97, nl, 98, nl] with modified := true } : Buffer).useRope = false ∧
    getVisibleLines { mkMapped [97, nl, 98, nl] with modified := true } 0
      (lineCount { mkMapped [97, nl, 98, nl] with modified := true }) =
      [97, nl, 98, nl] := by
  exact ⟨rfl, by decide, rfl, rfl⟩

/-! ### Claim C3: failed background saves -/

/-- C3: whichever step of the background write fails — creating the
temp file, writing, flushing, or the final rename — the save progress
counter is reset to `0`, the in-progress flag is cleared, and the bytes
at the original path are unchanged; conversely the original path's bytes
change only when no step failed, i.e. only the completed rename makes
the new content visible. -/
theorem c3_save_failure (content : List Nat) (fs : SaveFs) (failAt : Option SaveStep)
    (written : Nat) :
    (∀ step, failAt = some step →
      (runSaveThread content fs failAt written).progress = 0 ∧
      (runSaveThread content fs failAt written).inProgress = false ∧
      (runSaveThread content fs failAt written).fs.orig = fs.orig) ∧
    ((runSaveThread content fs failAt written).fs.orig ≠ fs.orig →
      failAt = none ∧ (runSaveThread content fs failAt written).fs.orig = content) := by
  cases failAt with
  | none =>
    constructor
    · intro step h; exact absurd h (by simp)
    · intro _; exact ⟨rfl, rfl⟩
  | some step =>
    cases step <;>
      exact ⟨fun st h => ⟨rfl, rfl, rfl⟩, fun hne => absurd rfl hne⟩

/-- Witness for `c3_save_failure`: a failed rename leaves progress `0`,
the flag cleared, and the original bytes `[98]` untouched. -/
theorem c3_witness :
    (runSaveThread [97] ⟨[98], none⟩ (some SaveStep.renameStep) 0).progress = 0 ∧
    (runSaveThread [97] ⟨[98], none⟩ (some SaveStep.renameStep) 0).inProgress = false ∧
    (runSaveThread [97] ⟨[98], none⟩ (some SaveStep.renameStep) 0).fs.orig = [98] :=
  (c3_save_failure [97] ⟨[98], none⟩ (some SaveStep.renameStep) 0).1
    SaveStep.renameStep rfl

/-! ### Claim C5: totality of the position/read queries -/

/-- An unloaded buffer (`Buffer::new`): no mmap, no rope, no line index. -/
def c5empty : Buffer :=
  { mmap := none, fileSize := 0, lineOffsets := [], lineCache := [],
    cacheOrder := [], maxCacheLines := 1000, edits := [], rope := none,
    useRope := false, hasPath := false, modified := false }

/-- C5, amended.  Over every buffer state the six position/read queries
are total and clamp or default rather than fail, with the provisos the
code forces.  `get_line` is empty in rope mode from `len_lines` on; in
mapped mode it is empty for an index beyond the line-offset table
provided neither the edit overlay nor the line cache holds an entry for
that index (a hit is returned verbatim, whatever the index), and at
exactly `line_count` a mapped buffer with no overlay or cache entry for
that line returns the trailing bytes after the last indexed newline, not
the empty string.  `get_visible_lines start count` renders exactly the
`min (line_count - start) count` lines from `start` — in particular it
is empty once `start` reaches `line_count`.  `char_at` is `none` and
`slice` empty beyond the content in either mode and whenever no storage
is loaded at all; `byte_offset_to_line` never exceeds `line_count`; and
`line_to_byte_offset` never exceeds the content length. -/
theorem c5_totality (b : Buffer) (r m : List Nat)
    (i off s e ln start count : Nat) :
    (b.useRope = true → b.rope = some r → lineCount b ≤ i → getLine b i = []) ∧
    (b.useRope = false → lookupA b.edits i = none → lookupA b.lineCache i = none →
      b.lineOffsets.length ≤ i → getLine b i = []) ∧
    (b.useRope = false → b.mmap = some m → b.lineOffsets = buildLineIndex m →
      lookupA b.edits (lineCount b) = none →
      lookupA b.lineCache (lineCount b) = none →
      getLine b (lineCount b) = m.drop ((buildLineIndex m).getLastD 0)) ∧
    getVisibleLines b start count =
      ((List.range (min (lineCount b - start) count)).map
        (fun j => getLine b (start + j))).flatten ∧
    (lineCount b ≤ start → getVisibleLines b start count = []) ∧
    (b.rope = some r → r.length ≤ off → charAt b off = none) ∧
    (b.rope = none → b.mmap = some m → m.length ≤ off → charAt b off = none) ∧
    (b.rope = none → b.mmap = none → charAt b off = none) ∧
    (b.rope = some r → r.length ≤ s → sliceB b s e = []) ∧
    (b.rope = none → b.mmap = some m → m.length ≤ s → sliceB b s e = []) ∧
    (b.rope = none → b.mmap = none → sliceB b s e = []) ∧
    (b.useRope = true → b.rope = some r → byteOffsetToLine b off ≤ lineCount b) ∧
    (b.useRope = false → b.rope = none → byteOffsetToLine b off ≤ lineCount b) ∧
    (b.rope = some r → lineToByteOffset b ln ≤ r.length) ∧
    (b.rope = none → b.mmap = some m → b.lineOffsets = buildLineIndex m →
      b.fileSize = m.length → lineToByteOffset b ln ≤ m.length) := by
  refine ⟨?_, ?_, ?_, ?_, ?_, ?_, ?_, ?_, ?_, ?_, ?_, ?_, ?_, ?_, ?_⟩
  · -- get_line, rope mode, out of range
    intro hu hr hle
    have hlc : lineCount b = ropeLenLines r := by
      unfold lineCount
      rw [if_pos hu, hr]
    unfold getLine
    rw [if_pos hu, hr]
    show (if ropeLenLines r ≤ i then [] else ropeLine r i) = []
    rw [if_pos (hlc ▸ hle)]
  · -- get_line, mapped mode, beyond the line-offset table, no overlay/cache hit
    intro hu he hc hlen
    unfold getLine
    simp only [hu, Bool.false_eq_true, if_false]
    unfold getLineMapped
    simp only [he, hc]
    cases hM : b.mmap with
    | none => rfl
    | some m2 => rw [List.get?_eq_none.mpr hlen]
  · -- get_line, mapped mode, at exactly line_count: the trailing partial line
    intro hu hM hO he hc
    have hL : 1 ≤ (buildLineIndex m).length := by
      unfold buildLineIndex
      simp
    have hlc : lineCount b = (buildLineIndex m).length - 1 := by
      unfold lineCount
      simp only [hu, Bool.false_eq_true, if_false]
      rw [hO]
    have hne : buildLineIndex m ≠ [] := by
      unfold buildLineIndex
      simp
    have hlast : (buildLineIndex m).get? ((buildLineIndex m).length - 1) =
        some ((buildLineIndex m).getLastD 0) := by
      rw [← List.getLast?_eq_get?, List.getLastD_eq_getLast?,
        List.getLast?_eq_getLast_of_ne_nil hne]
      rfl
    have hnone2 : (buildLineIndex m).get?
        ((buildLineIndex m).length - 1 + 1) = none :=
      List.get?_eq_none.mpr (by omega)
    unfold getLine
    simp only [hu, Bool.false_eq_true, if_false]
    unfold getLineMapped
    simp only [he, hc, hM, hO]
    rw [hlc, hlast, hnone2]
    show listSlice m ((buildLineIndex m).getLastD 0) m.length = _
    unfold listSlice
    have hlen : m.length - (buildLineIndex m).getLastD 0 =
        (m.drop ((buildLineIndex m).getLastD 0)).length := by
      rw [List.length_drop]
    rw [hlen, List.take_length]
  · -- get_visible_lines renders exactly the clamped range
    unfold getVisibleLines
    have hp : (fun j => decide (start + j < lineCount b)) =
        (fun j => decide (j < lineCount b - start)) := by
      funext j
      exact decide_eq_decide.mpr (by omega)
    rw [hp, takeWhile_range_lt]
  · -- get_visible_lines is empty from line_count on
    intro hst
    unfold getVisibleLines
    have hp : (fun j => decide (start + j < lineCount b)) =
        (fun j => decide (j < lineCount b - start)) := by
      funext j
      exact decide_eq_decide.mpr (by omega)
    rw [hp, takeWhile_range_lt, Nat.sub_eq_zero_of_le hst]
    simp
  · -- char_at beyond the content, rope present
    intro hr hoff
    unfold charAt
    rw [hr]
    show (if r.length ≤ off then none else r.get? off) = none
    rw [if_pos hoff]
  · -- char_at beyond the content, mapped
    intro hr hM hoff
    unfold charAt
    rw [hr, hM]
    show m.get? off = none
    exact List.get?_eq_none.mpr hoff
  · -- char_at with no storage at all
    intro hr hM
    unfold charAt
    rw [hr, hM]
  · -- slice beyond the content, rope present
    intro hr hs2
    unfold sliceB
    rw [hr]
    show (if min e r.length ≤ min s r.length then []
          else listSlice r (min s r.length) (min e r.length)) = []
    rw [if_pos (by rw [Nat.min_eq_right hs2]; exact Nat.min_le_right e _)]
  · -- slice beyond the content, mapped
    intro hr hM hs2
    unfold sliceB
    rw [hr, hM]
    show (if min e m.length ≤ min s m.length then []
          else listSlice m (min s m.length) (min e m.length)) = []
    rw [if_pos (by rw [Nat.min_eq_right hs2]; exact Nat.min_le_right e _)]
  · -- slice with no storage at all
    intro hr hM
    unfold sliceB
    rw [hr, hM]
  · -- byte_offset_to_line stays within line_count, rope mode
    intro hu hr
    have hlc : lineCount b = ropeLenLines r := by
      unfold lineCount
      rw [if_pos hu, hr]
    unfold byteOffsetToLine
    rw [hr]
    show ropeByteToLine r (min off r.length) ≤ lineCount b
    have hcount : (r.take (min off r.length)).count nl ≤ r.count nl :=
      List.Sublist.count_le (List.take_sublist _ r) nl
    have hlen2 : (ropeLines r).length = r.count nl + 1 := ropeLines_length r
    calc ropeByteToLine r (min off r.length)
        = (r.take (min off r.length)).count nl := rfl
      _ ≤ lineCount b := by rw [hlc]; unfold ropeLenLines; omega
  · -- byte_offset_to_line stays within line_count, mapped mode
    intro hu hr
    have hlc : lineCount b = b.lineOffsets.length - 1 := by
      unfold lineCount
      simp only [hu, Bool.false_eq_true, if_false]
    unfold byteOffsetToLine
    rw [hr]
    show (match binSearchBy b.lineOffsets (fun x => compare x off) with
          | .inl i2 => i2
          | .inr i2 => i2 - 1) ≤ lineCount b
    have hb := binSearchByGo_le b.lineOffsets (fun x => compare x off)
      (b.lineOffsets.length + 1) 0 b.lineOffsets.length (by omega)
    cases hres : binSearchBy b.lineOffsets (fun x => compare x off) with
    | inl i2 =>
      unfold binSearchBy at hres
      have := hb.1 i2 hres
      show i2 ≤ lineCount b
      rw [hlc]
      omega
    | inr i2 =>
      unfold binSearchBy at hres
      have := hb.2 i2 hres
      show i2 - 1 ≤ lineCount b
      rw [hlc]
      omega
  · -- line_to_byte_offset is clamped, rope present
    intro hr
    unfold lineToByteOffset
    rw [hr]
    show (if ropeLenLines r ≤ ln then r.length else ropeLineToByte r ln) ≤ r.length
    split_ifs
    · exact le_refl _
    · exact ropeLineToByte_le r ln
  · -- line_to_byte_offset is clamped, mapped mode
    intro hr hM hO hF
    unfold lineToByteOffset
    rw [hr]
    show (b.lineOffsets.get? ln).getD b.fileSize ≤ m.length
    rw [hO, hF]
    cases hres : (buildLineIndex m).get? ln with
    | some v =>
      show v ≤ m.length
      exact buildLineIndex_le m v (List.get?_mem hres)
    | none => exact le_refl _

/-- C5, counterexample.  The claim says out-of-range line indices yield
the empty string.  On a mapped buffer over `a\nb` (a file whose last
line lacks a newline), `line_count` is `1`, so index `1` is out of
range, yet `get_line 1` returns the trailing byte `b`, not the empty
string. -/
theorem c5_counterexample :
    lineCount (mkMapped [97, nl, 98]) = 1 ∧
    getLine (mkMapped [97, nl, 98]) 1 = [98] ∧
    ([98] : List Nat) ≠ [] := by
  decide

/-- Witness for `c5_totality`: a rope buffer over `a\nb`, a mapped
buffer over `a\nb`, and an unloaded buffer, with out-of-range indices
and offsets. -/
theorem c5_witness :
    getLine (mkRope [97, nl, 98]) 5 = [] ∧
    getLine (mkMapped [97, nl, 98]) 5 = [] ∧
    getLine (mkMapped [97, nl, 98]) (lineCount (mkMapped [97, nl, 98])) =
      ([97, nl, 98] : List Nat).drop ((buildLineIndex [97, nl, 98]).getLastD 0) ∧
    getVisibleLines (mkMapped [97, nl, 98]) 1 4 =
      ((List.range (min (lineCount (mkMapped [97, nl, 98]) - 1) 4)).map
        (fun j => getLine (mkMapped [97, nl, 98]) (1 + j))).flatten ∧
    getVisibleLines (mkRope [97, nl, 98]) 5 4 = [] ∧
    charAt (mkRope [97, nl, 98]) 9 = none ∧
    charAt (mkMapped [97, nl, 98]) 9 = none ∧
    charAt c5empty 9 = none ∧
    sliceB (mkRope [97, nl, 98]) 9 12 = [] ∧
    sliceB (mkMapped [97, nl, 98]) 9 12 = [] ∧
    sliceB c5empty 9 12 = [] ∧
    byteOffsetToLine (mkRope [97, nl, 98]) 9 ≤ lineCount (mkRope [97, nl, 98]) ∧
    byteOffsetToLine (mkMapped [97, nl, 98]) 9 ≤ lineCount (mkMapped [97, nl, 98]) ∧
    lineToByteOffset (mkRope [97, nl, 98]) 7 ≤ ([97, nl, 98] : List Nat).length ∧
    lineToByteOffset (mkMapped [97, nl, 98]) 7 ≤ ([97, nl, 98] : List Nat).length := by
  have hR := c5_totality (mkRope [97, nl, 98]) [97, nl, 98] [97, nl, 98] 5 9 9 12 7 5 4
  have hM := c5_totality (mkMapped [97, nl, 98]) [] [97, nl, 98] 5 9 9 12 7 1 4
  have hE := c5_totality c5empty [] [] 5 9 9 12 7 0 0
  refine ⟨hR.1 rfl rfl (by decide), hM.2.1 rfl rfl rfl (by decide),
    hM.2.2.1 rfl rfl rfl rfl rfl, hM.2.2.2.1, hR.2.2.2.2.1 (by decide),
    hR.2.2.2.2.2.1 rfl (by decide), hM.2.2.2.2.2.2.1 rfl rfl (by decide),
    hE.2.2.2.2.2.2.2.1 rfl rfl, hR.2.2.2.2.2.2.2.2.1 rfl (by decide),
    hM.2.2.2.2.2.2.2.2.2.1 rfl rfl (by decide),
    hE.2.2.2.2.2.2.2.2.2.2.1 rfl rfl,
    hR.2.2.2.2.2.2.2.2.2.2.2.1 rfl rfl,
    hM.2.2.2.2.2.2.2.2.2.2.2.2.1 rfl rfl,
    hR.2.2.2.2.2.2.2.2.2.2.2.2.2.1 rfl,
    hM.2.2.2.2.2.2.2.2.2.2.2.2.2.2 rfl rfl rfl rfl⟩

/-! ### Claim C1: the save/reload round trip -/

/-- Content a `save` call actually writes equals the buffer's full
visible-range rendering (the well-formedness hypothesis rules out the
unreachable state of a mapped buffer that still owns a rope). -/
theorem savedBytes_eq_render (b : Buffer) (out : List Nat)
    (hwf : b.useRope = false → b.rope = none)
    (hs : savedBytes b = .ok out) :
    out = getVisibleLines b 0 (lineCount b) := by
  unfold savedBytes at hs
  split_ifs at hs with hpath hov
  · -- mapped buffer with overlay: the save loop materializes every line
    injection hs with hs
    subst hs
    unfold getVisibleLines
    rw [takeWhile_all _ _ ?hall]
    case hall =>
      intro a ha
      simpa using List.mem_range.mp ha
    congr 1
    apply List.map_congr_left
    intro a _
    rw [Nat.zero_add]
  · -- rope streamed to disk
    split at hs
    · next r hr =>
      injection hs with hs
      subst hs
      cases hu : b.useRope with
      | true => exact (ropeRender b r hu hr).symm
      | false =>
        rw [hwf hu] at hr
        exact absurd hr (by simp)
    · exact absurd hs (by simp)

/-- Rendering the first `k` lines of a freshly mapped buffer yields the
mapped bytes up to the `k`-th line offset. -/
theorem mappedRenderTake (m : List Nat) :
    ∀ k, k < (buildLineIndex m).length →
      ((List.range k).map (fun i => getLine (mkMapped m) i)).flatten =
        m.take ((buildLineIndex m).getD k 0) := by
  intro k
  induction k with
  | zero => intro _; rfl
  | succ kk ih =>
    intro hk
    have hkk : kk < (buildLineIndex m).length := by omega
    rw [List.range_succ, List.map_append, List.flatten_append, ih (by omega)]
    simp only [List.map_cons, List.map_nil, List.flatten_cons, List.flatten_nil,
      List.append_nil]
    have hget : (buildLineIndex m).get? kk = some ((buildLineIndex m).getD kk 0) := by
      rw [List.get?_eq_getElem?, List.getElem?_eq_getElem hkk,
        List.getD_eq_getElem _ _ hkk]
    have hget1 : (buildLineIndex m).get? (kk + 1) =
        some ((buildLineIndex m).getD (kk + 1) 0) := by
      rw [List.get?_eq_getElem?, List.getElem?_eq_getElem hk,
        List.getD_eq_getElem _ _ hk]
    have hline : getLine (mkMapped m) kk =
        listSlice m ((buildLineIndex m).getD kk 0)
          ((buildLineIndex m).getD (kk + 1) 0) := by
      unfold getLine
      show getLineMapped (mkMapped m) kk = _
      unfold getLineMapped
      show (match (buildLineIndex m).get? kk with
            | some st => listSlice m st
                (((buildLineIndex m).get? (kk + 1)).getD m.length)
            | none => []) = _
      rw [hget, hget1]
      rfl
    rw [hline]
    have hab : (buildLineIndex m).getD kk 0 ≤ (buildLineIndex m).getD (kk + 1) 0 :=
      Nat.le_of_lt (pairwise_getD_lt _ 0 (buildLineIndex_pairwise m) (by omega) hk)
    have hsum : (buildLineIndex m).getD kk 0 +
        ((buildLineIndex m).getD (kk + 1) 0 - (buildLineIndex m).getD kk 0) =
        (buildLineIndex m).getD (kk + 1) 0 := by omega
    unfold listSlice
    conv_rhs => rw [← hsum, List.take_add]

/-- C1, amended.  For a buffer whose save succeeds, reloading the saved
bytes and rendering the full visible range reproduces the pre-save
rendering *provided* the saved file is reloaded in rope mode (below the
10 MiB threshold) or its content ends with a newline.  (Without that
proviso the claim fails: a mapped reload drops the bytes after the last
newline from the rendering — see the counterexample.) -/
theorem c1_round_trip (b : Buffer) (out : List Nat)
    (hwf : b.useRope = false → b.rope = none)
    (hs : savedBytes b = .ok out)
    (hok : out.length < ropeThreshold ∨ out.getLast? = some nl) :
    getVisibleLines (loadFile out) 0 (lineCount (loadFile out)) =
      getVisibleLines b 0 (lineCount b) := by
  rw [← savedBytes_eq_render b out hwf hs]
  unfold loadFile
  by_cases hsz : out.length < ropeThreshold
  · rw [if_pos hsz]
    exact ropeRender (mkRope out) out rfl rfl
  · rw [if_neg hsz]
    have hnlast : out.getLast? = some nl := by
      rcases hok with h | h
      · exact absurd h hsz
      · exact h
    have hL : 1 ≤ (buildLineIndex out).length := by
      unfold buildLineIndex
      simp
    have haux := lineIndexAux_getLast out 0 hnlast
    have hauxne : lineIndexAux out 0 ≠ [] := by
      intro hc
      rw [hc] at haux
      simp at haux
    have hlast : (buildLineIndex out).getLastD 0 = out.length := by
      unfold buildLineIndex
      rw [List.getLastD_eq_getLast?]
      obtain ⟨y, ys, hyy⟩ := List.exists_cons_of_ne_nil hauxne
      rw [hyy, List.getLast?_cons_cons, ← hyy, haux]
      simp
    have hlc : lineCount (mkMapped out) = (buildLineIndex out).length - 1 := rfl
    unfold getVisibleLines
    rw [takeWhile_all _ _ ?hall2]
    case hall2 =>
      intro a ha
      simpa using List.mem_range.mp ha
    have hmape : (List.range (lineCount (mkMapped out))).map
        (fun i => getLine (mkMapped out) (0 + i)) =
        (List.range (lineCount (mkMapped out))).map
          (fun i => getLine (mkMapped out) i) := by
      apply List.map_congr_left
      intro a _
      rw [Nat.zero_add]
    rw [hmape, hlc, mappedRenderTake out ((buildLineIndex out).length - 1) (by omega)]
    have hgetlast : (buildLineIndex out).getD ((buildLineIndex out).length - 1) 0 =
        (buildLineIndex out).getLastD 0 := by
      rw [List.getD_eq_getD_get?, ← List.getLast?_eq_get?, List.getLastD_eq_getLast?]
    rw [hgetlast, hlast, List.take_length]

/-- Witness for `c1_round_trip`: the one-byte rope buffer saves its
content and reloading renders it identically. -/
theorem c1_witness :
    getVisibleLines (loadFile [97]) 0 (lineCount (loadFile [97])) =
      getVisibleLines (mkRope [97]) 0 (lineCount (mkRope [97])) :=
  c1_round_trip (mkRope [97]) [97] (by decide) (by rfl) (Or.inl (by decide))

/-- Ten mebibytes of the byte `b`: inserted into a tiny file, this
pushes the buffer content past the mapped-mode threshold. -/
def c1text : List Nat := List.replicate 10485760 98

/-- The saved content of the C1 counterexample: `x` followed by the big
insert, with no newline anywhere. -/
def c1out : List Nat := 120 :: c1text

/-- The buffer state after the big insert. -/
def c1b1 : Buffer :=
  { mkRope [120] with
    rope := some c1out
    modified := true }

theorem lineCount_mkMapped (content : List Nat) :
    lineCount (mkMapped content) = (buildLineIndex content).length - 1 := rfl

theorem getVisibleLines_zero (b : Buffer) (start : Nat) :
    getVisibleLines b start 0 = [] := rfl

/-- C1, counterexample.  Loading a one-byte file `x` (rope mode),
inserting 10 MiB of `b` at offset 1, saving (the background thread
succeeds and the renamed file holds exactly the saved bytes), and
reloading: the saved file is now ≥ 10 MiB so `load_file` maps it, its
newline scan finds no newline, `line_count` is `0`, and rendering the
full visible range yields the empty string — not the pre-save rendering,
which is the whole content. -/
theorem c1_counterexample :
    insertB (loadFile [120]) 1 c1text = .ok c1b1 ∧
    savedBytes c1b1 = .ok c1out ∧
    (runSaveThread c1out ⟨[120], none⟩ none 0).fs.orig = c1out ∧
    (runSaveThread c1out ⟨[120], none⟩ none 0).inProgress = false ∧
    getVisibleLines c1b1 0 (lineCount c1b1) = c1out ∧
    getVisibleLines (loadFile c1out) 0 (lineCount (loadFile c1out)) = [] ∧
    c1out ≠ [] := by
  have hload : loadFile [120] = mkRope [120] := by
    unfold loadFile
    rw [if_pos (by decide)]
  have hrope : List.take (min 1 ([120] : List Nat).length) [120] ++ c1text ++
      List.drop (min 1 ([120] : List Nat).length) [120] = c1out := by
    simp [c1out]
  have hins : insertB (loadFile [120]) 1 c1text = .ok c1b1 := by
    rw [hload]
    calc insertB (mkRope [120]) 1 c1text
        = .ok { mkRope [120] with
                  rope := some (List.take (min 1 ([120] : List Nat).length) [120] ++
                    c1text ++ List.drop (min 1 ([120] : List Nat).length) [120])
                  modified := true } := rfl
      _ = .ok c1b1 := by rw [hrope]; rfl
  have hsb : savedBytes c1b1 = .ok c1out := by
    unfold savedBytes
    rw [if_pos (show c1b1.hasPath = true from rfl), if_neg (by simp [c1b1, mkRope])]
    rfl
  have htlen : (c1text : List Nat).length = 10485760 := by
    unfold c1text
    rw [List.length_replicate]
  have hlen : (c1out : List Nat).length = 10485761 := by
    unfold c1out
    rw [List.length_cons, htlen]
  have hload2 : loadFile c1out = mkMapped c1out := by
    unfold loadFile
    rw [if_neg (by rw [hlen]; decide)]
  have hnonl : ∀ c ∈ c1out, c ≠ nl := by
    intro c hc
    rcases List.mem_cons.mp hc with rfl | h2
    · decide
    · rw [List.eq_of_mem_replicate h2]
      decide
  have hidx : buildLineIndex c1out = [0] := by
    unfold buildLineIndex
    rw [lineIndexAux_no_nl c1out hnonl 0]
  have hlc0 : lineCount (mkMapped c1out) = 0 := by
    rw [lineCount_mkMapped, hidx]
    rfl
  have hrender2 : getVisibleLines (loadFile c1out) 0 (lineCount (loadFile c1out)) = [] := by
    rw [hload2, hlc0, getVisibleLines_zero]
  exact ⟨hins, hsb, rfl, rfl, ropeRender c1b1 c1out rfl rfl, hrender2,
    by simp [c1out]⟩

end Jim
